import Mathlib

/-!
Shallow embedding of `src/reader/markdown_reader.py` (class `MarkdownReader`).

Python strings are modelled as `List Char`.  The regex classes `\s`, `\w`, `\d`
and `str.strip()` are modelled over the ASCII alphabet (the alphabet used by
every input in this development): `isPySpace`, `isWordChar`, `Char.isDigit`,
`pyStrip`.
-/

namespace MdReader

/-- Whitespace as recognised by Python's `str.strip()` and the regex class
`\s` on ASCII text. -/
def isPySpace (c : Char) : Bool :=
  c == ' ' || c == '\t' || c == '\n' || c == '\r' || c == '\x0b' || c == '\x0c'

/-- Word characters of the regex class `\w` on ASCII text. -/
def isWordChar (c : Char) : Bool :=
  c.isAlphanum || c == '_'

/-- The backtick character (written by code point to keep the source free of
literal backticks). -/
def btick : Char := Char.ofNat 96

/-- Python `str.strip()`: remove leading and trailing whitespace. -/
def pyStrip (l : List Char) : List Char :=
  ((l.dropWhile isPySpace).reverse.dropWhile isPySpace).reverse

/-- Python `content.split('\n')`. -/
def splitLines : List Char → List (List Char)
  | [] => [[]]
  | c :: r =>
    match splitLines r with
    | [] => [[c]]
    | l :: ls => if c == '\n' then [] :: l :: ls else (c :: l) :: ls

/-- Python `sep.join(parts)`. -/
def joinWith (sep : List Char) : List (List Char) → List Char
  | [] => []
  | [x] => x
  | x :: y :: ys => x ++ sep ++ joinWith sep (y :: ys)

/-- Length of the maximal leading run of a given character. -/
def leadCount (a : Char) (s : List Char) : Nat :=
  (s.takeWhile (· = a)).length

/-- A heading entry: `{'level': .., 'text': .., 'line_number': ..}`. -/
structure Heading where
  level : Nat
  text : List Char
  line_number : Nat
deriving DecidableEq

/-- A code-block entry: `{'language': .., 'code': ..}`. -/
structure CodeBlock where
  language : Option (List Char)
  code : List Char
deriving DecidableEq

/-- A link entry: `{'text': .., 'url': ..}`. -/
structure Link where
  text : List Char
  url : List Char
deriving DecidableEq

/-- An image entry: `{'alt_text': .., 'url': ..}`. -/
structure Image where
  alt_text : List Char
  url : List Char
deriving DecidableEq

/-- A section entry of `get_sections`: `{'level': .., 'heading': .., 'content': ..}`. -/
structure MdSection where
  level : Nat
  heading : List Char
  content : List Char
deriving DecidableEq

/-- The dictionary returned by `MarkdownReader.parse`. -/
structure Parsed where
  title : Option (List Char)
  headings : List Heading
  paragraphs : List (List Char)
  code_blocks : List CodeBlock
  links : List Link
  images : List Image
  raw : List Char
deriving DecidableEq

/-- Matching `re.match(r'^(#{1,6})\s+(.+)$', line.strip())` and returning
`(level, text.strip())`.  The quantifier `#{1,6}` together with the required
`\s` after it means: the maximal leading run of 1 to 6 hash characters, whose
following character is whitespace; `\s+(.+)$` needs at least two further
characters, and `match.group(2).strip()` equals the strip of everything after
the hashes. -/
def headingMatch (line : List Char) : Option (Nat × List Char) :=
  let s := pyStrip line
  let k := leadCount '#' s
  if 1 ≤ k ∧ k ≤ 6 then
    match s.drop k with
    | c1 :: c2 :: rest => if isPySpace c1 then some (k, pyStrip (c1 :: c2 :: rest)) else none
    | _ => none
  else none

/-- Matching `re.match(r'^#\s+(.+)$', line.strip())` in `_extract_title` and
returning `match.group(1).strip()`. -/
def titleMatch (line : List Char) : Option (List Char) :=
  match pyStrip line with
  | c0 :: c1 :: c2 :: rest =>
    if c0 = '#' ∧ isPySpace c1 then some (pyStrip (c1 :: c2 :: rest)) else none
  | _ => none

/-- The title loop of `_extract_title`: first matching line wins. -/
def titleOfLines (lines : List (List Char)) : Option (List Char) :=
  lines.findSome? titleMatch

/-- The heading loop of `_extract_headings`, carrying the 1-based line number. -/
def headingsAux (n : Nat) : List (List Char) → List Heading
  | [] => []
  | l :: ls =>
    match headingMatch l with
    | some (k, t) => ⟨k, t, n⟩ :: headingsAux (n + 1) ls
    | none => headingsAux (n + 1) ls

/-- `MarkdownReader._extract_title` on raw content. -/
def extract_title (c : List Char) : Option (List Char) :=
  titleOfLines (splitLines c)

/-- `MarkdownReader._extract_headings` on raw content. -/
def extract_headings (c : List Char) : List Heading :=
  headingsAux 1 (splitLines c)

/-- Test `stripped.startswith('#')`. -/
def startsHash : List Char → Bool
  | c :: _ => c == '#'
  | [] => false

/-- Test `stripped.startswith('³³³')` (three backticks). -/
def startsFence : List Char → Bool
  | a :: b :: c :: _ => a == btick && b == btick && c == btick
  | _ => false

/-- Test `re.match(r'^[-*+]\s+', stripped)`. -/
def startsBullet : List Char → Bool
  | c :: d :: _ => (c == '-' || c == '*' || c == '+') && isPySpace d
  | _ => false

/-- Test `re.match(r'^\d+\.\s+', stripped)`: a maximal nonempty run of digits,
then a dot, then whitespace. -/
def startsNumbered (s : List Char) : Bool :=
  let ds := s.takeWhile Char.isDigit
  match s.drop ds.length with
  | c :: d :: _ => !ds.isEmpty && c == '.' && isPySpace d
  | _ => false

/-- The skip conditions of `_extract_paragraphs` (heading, fence, bullet,
numbered list), applied to the stripped line. -/
def isSkipLine (s : List Char) : Bool :=
  startsHash s || startsFence s || startsBullet s || startsNumbered s

/-- The accumulation loop of `_extract_paragraphs`: `acc` is
`current_paragraph` (stripped lines, in order). -/
def parasAux (acc : List (List Char)) : List (List Char) → List (List Char)
  | [] => if acc.isEmpty then [] else [joinWith [' '] acc]
  | l :: ls =>
    let s := pyStrip l
    if s.isEmpty then
      if acc.isEmpty then parasAux acc ls else joinWith [' '] acc :: parasAux [] ls
    else if isSkipLine s then parasAux acc ls
    else parasAux (acc ++ [s]) ls

/-- `MarkdownReader._extract_paragraphs` on raw content, including the final
`[p for p in paragraphs if p]` filter. -/
def extract_paragraphs (c : List Char) : List (List Char) :=
  (parasAux [] (splitLines c)).filter (fun p => !p.isEmpty)

/-- Split a string at the first occurrence of a character: the regex fragment
`([^x]*)x` — the characters before the first `x`, and the rest after it;
`none` when `x` does not occur. -/
def splitAtChar (x : Char) : List Char → Option (List Char × List Char)
  | [] => none
  | c :: r =>
    if c == x then some ([], r)
    else
      match splitAtChar x r with
      | some (a, b) => some (c :: a, b)
      | none => none

/-- Try the inline-link pattern `\[([^\]]+)\]\(([^\)]+)\)` at the head of the
string; on success return `(text, url, rest-after-match)`. -/
def linkMatchAt : List Char → Option (List Char × List Char × List Char)
  | '[' :: r1 =>
    match splitAtChar ']' r1 with
    | some (t, r2) =>
      if t.isEmpty then none
      else
        match r2 with
        | '(' :: r3 =>
          match splitAtChar ')' r3 with
          | some (u, r4) => if u.isEmpty then none else some (t, u, r4)
          | none => none
        | _ => none
    | none => none
  | _ => none

/-- Try the image pattern `!\[([^\]]*)\]\(([^\)]+)\)` at the head of the
string (the alt text may be empty). -/
def imageMatchAt : List Char → Option (List Char × List Char × List Char)
  | '!' :: '[' :: r1 =>
    match splitAtChar ']' r1 with
    | some (a, r2) =>
      match r2 with
      | '(' :: r3 =>
        match splitAtChar ')' r3 with
        | some (u, r4) => if u.isEmpty then none else some (a, u, r4)
        | none => none
      | _ => none
    | none => none
  | _ => none

/-- Split a string at the first occurrence of a triple backtick (the lazy
`(.*?)` up to the closing fence): the characters before it and the rest after
it. -/
def splitAtTriple : List Char → Option (List Char × List Char)
  | a :: b :: c :: r =>
    if a == btick && b == btick && c == btick then some ([], r)
    else
      match splitAtTriple (b :: c :: r) with
      | some (p, q) => some (a :: p, q)
      | none => none
  | _ => none

/-- Try the fenced-code pattern of `_extract_code_blocks`,
`(three backticks)(\w+)?\n(.*?)(three backticks)` with `re.DOTALL`, at the
head of the string.  The optional language tag is the maximal run of word
characters directly after the opening fence (it cannot match anything shorter
under backtracking, because every shorter cut is followed by a word character,
never by the required newline); the body runs lazily up to the first closing
fence.  Returns `(block, rest-after-match)`; the captured code is
`match.group(2).strip()`. -/
def cbMatchAt (s : List Char) : Option (CodeBlock × List Char) :=
  match s with
  | a :: b :: c :: r1 =>
    if a == btick && b == btick && c == btick then
      match r1.drop (r1.takeWhile isWordChar).length with
      | d :: r3 =>
        if d = '\n' then
          match splitAtTriple r3 with
          | some (body, rest) =>
            some (⟨if (r1.takeWhile isWordChar).isEmpty then none
                   else some (r1.takeWhile isWordChar), pyStrip body⟩, rest)
          | none => none
        else none
      | [] => none
    else none
  | _ => none

/-- One `re.finditer` scan: at each position try the matcher; on a match,
emit it and resume after the match, otherwise advance one character.  The
fuel is initialised to the string length, which bounds the number of steps
(every step consumes at least one character). -/
def scanLinksF : Nat → List Char → List Link
  | 0, _ => []
  | _ + 1, [] => []
  | f + 1, c :: rest =>
    match linkMatchAt (c :: rest) with
    | some (t, u, r) => ⟨t, u⟩ :: scanLinksF f r
    | none => scanLinksF f rest

/-- `re.finditer` scan for the image pattern. -/
def scanImagesF : Nat → List Char → List Image
  | 0, _ => []
  | _ + 1, [] => []
  | f + 1, c :: rest =>
    match imageMatchAt (c :: rest) with
    | some (a, u, r) => ⟨a, u⟩ :: scanImagesF f r
    | none => scanImagesF f rest

/-- `re.finditer` scan for the fenced-code pattern. -/
def scanCBF : Nat → List Char → List CodeBlock
  | 0, _ => []
  | _ + 1, [] => []
  | f + 1, c :: rest =>
    match cbMatchAt (c :: rest) with
    | some (blk, r) => blk :: scanCBF f r
    | none => scanCBF f rest

/-- Matching `re.match(r'^\[([^\]]+)\]:\s+(.+)$', line.strip())` in the
reference-definition scan of `_extract_links`; the url is
`match.group(2).strip()`. -/
def refMatch (line : List Char) : Option Link :=
  match pyStrip line with
  | '[' :: r1 =>
    match splitAtChar ']' r1 with
    | some (t, r2) =>
      if t.isEmpty then none
      else
        match r2 with
        | ':' :: c1 :: c2 :: r3 => if isPySpace c1 then some ⟨t, pyStrip (c1 :: c2 :: r3)⟩ else none
        | _ => none
    | none => none
  | _ => none

/-- `MarkdownReader._extract_code_blocks` on raw content. -/
def extract_code_blocks (c : List Char) : List CodeBlock :=
  scanCBF c.length c

/-- `MarkdownReader._extract_links` on raw content: the inline-link
`finditer` pass over the whole text, followed by the per-line
reference-definition pass. -/
def extract_links (c : List Char) : List Link :=
  scanLinksF c.length c ++ (splitLines c).filterMap refMatch

/-- `MarkdownReader._extract_images` on raw content. -/
def extract_images (c : List Char) : List Image :=
  scanImagesF c.length c

/-- The pure computation performed by `parse` on non-falsy content. -/
def parseContent (c : List Char) : Parsed :=
  ⟨extract_title c, extract_headings c, extract_paragraphs c,
   extract_code_blocks c, extract_links c, extract_images c, c⟩

/-- The error kinds of the spec: `NotFoundError` is the code's
`FileNotFoundError`, `InvalidInputError` the `ValueError` for a non-file
path, `NoContentError` the `ValueError` for parsing without content. -/
inductive MdErr where
  | notFound
  | invalidInput
  | noContent
deriving DecidableEq

/-- The mutable fields of a `MarkdownReader` instance. -/
structure RState where
  file_path : Option (List Char)
  content : Option (List Char)
  parsed_content : Option Parsed
deriving DecidableEq

/-- Python truthiness of `self.content`: falsy when `None` or the empty
string (`if not self.content`). -/
def contentFalsy : Option (List Char) → Bool
  | none => true
  | some [] => true
  | some (_ :: _) => false

/-- What a path names on the file system: nothing, a regular file with given
text, or something that exists but is not a regular file. -/
inductive PathKind where
  | absent
  | nonFile
  | file (text : List Char)

/-- `MarkdownReader.read`, over an abstract file system `fs`: raise
`NotFoundError` when the path does not exist, `InvalidInputError` when it is
not a regular file, otherwise store the file's text and reset the cache. -/
def read (fs : List Char → PathKind) (p : List Char) (st : RState) :
    Except MdErr (List Char) × RState :=
  match fs p with
  | .absent => (.error .notFound, st)
  | .nonFile => (.error .invalidInput, st)
  | .file text => (.ok text, ⟨some p, some text, none⟩)

/-- `MarkdownReader.read_string`: store the string verbatim, clear the file
path and the cache. -/
def read_string (c : List Char) (_st : RState) : List Char × RState :=
  (c, ⟨none, some c, none⟩)

/-- `MarkdownReader.get_content`. -/
def get_content (st : RState) : Option (List Char) :=
  st.content

/-- `MarkdownReader.parse`: raise `NoContentError` when `self.content` is
falsy; return the cache when populated; otherwise compute, cache and
return. -/
def parse (st : RState) : Except MdErr Parsed × RState :=
  if contentFalsy st.content then (.error .noContent, st)
  else
    match st.parsed_content with
    | some p => (.ok p, st)
    | none =>
      let p := parseContent (st.content.getD [])
      (.ok p, { st with parsed_content := some p })

/-- `MarkdownReader.get_headings_by_level`: force `parse` (propagating its
error), then filter by level, keeping document order. -/
def get_headings_by_level (st : RState) (lv : Nat) : Except MdErr (List (List Char)) × RState :=
  match parse st with
  | (.error e, st') => (.error e, st')
  | (.ok p, st') => (.ok (((p.headings.filter (fun h => h.level == lv)).map Heading.text)), st')

/-- The section loop of `get_sections`: `cur` is `current_section`
(level and heading text), `content` is `current_content` (raw lines, in
order). -/
def closeSection (cur : Option (Nat × List Char)) (content : List (List Char)) :
    List MdSection :=
  match cur with
  | none => []
  | some (k, t) => [⟨k, t, pyStrip (joinWith ['\n'] content)⟩]

def sectionsAux (cur : Option (Nat × List Char)) (content : List (List Char)) :
    List (List Char) → List MdSection
  | [] => closeSection cur content
  | l :: ls =>
    match headingMatch l with
    | some (k, t) => closeSection cur content ++ sectionsAux (some (k, t)) [] ls
    | none =>
      if cur.isSome then sectionsAux cur (content ++ [l]) ls
      else sectionsAux cur content ls

/-- `MarkdownReader.get_sections`: return `[]` when `self.content` is falsy,
otherwise run the section loop over the lines. -/
def get_sections (st : RState) : List MdSection :=
  if contentFalsy st.content then []
  else sectionsAux none [] (splitLines (st.content.getD []))

/-- Specification-side grouping for paragraph extraction: split the
(stripped) lines into maximal runs separated by blank lines. -/
def blankGroups : List (List Char) → List (List (List Char))
  | [] => [[]]
  | s :: ls =>
    match blankGroups ls with
    | [] => [[s]]
    | g :: gs => if s.isEmpty then [] :: g :: gs else (s :: g) :: gs

/-- Specification-side rendering of one blank-separated group: discard the
skip lines, join the remaining plain lines with single spaces, and emit
nothing when no plain line remains. -/
def renderGroup (g : List (List Char)) : Option (List Char) :=
  let g' := g.filter (fun s => !isSkipLine s)
  if g'.isEmpty then none else some (joinWith [' '] g')

/-- Emit one joined paragraph from a list of accumulated lines, or nothing
when no line was accumulated. -/
def optJoin (xs : List (List Char)) : List (List Char) :=
  if xs.isEmpty then [] else [joinWith [' '] xs]

/-- Specification-side paragraph extraction, following the spec's words:
paragraphs are the blank-separated runs of stripped lines, skip lines
contribute nothing and break nothing, runs are joined by single spaces, and
empty paragraphs are never emitted. -/
def paragraphsSpec (c : List Char) : List (List Char) :=
  (blankGroups ((splitLines c).map pyStrip)).filterMap renderGroup

/-- Specification-side section derivation, following the spec's words: lines
before the first heading are discarded; each heading opens a section whose
content is the following run of non-heading lines joined by newlines and
trimmed at both ends. -/
def sectionsSpec : List (List Char) → List MdSection
  | [] => []
  | l :: ls =>
    match headingMatch l with
    | none => sectionsSpec ls
    | some (k, t) =>
      ⟨k, t, pyStrip (joinWith ['\n'] (ls.takeWhile (fun x => (headingMatch x).isNone)))⟩ ::
        sectionsSpec (ls.dropWhile (fun x => (headingMatch x).isNone))
termination_by ls => ls.length
decreasing_by
  · simp only [List.length_cons]
    omega
  · simp only [List.length_cons]
    have := (List.dropWhile_sublist (l := ls) (fun x => (headingMatch x).isNone)).length_le
    omega

/-- Specification-side heading recognition, following the spec's words: the
stripped line consists of exactly `k` hash characters (1 to 6 of them),
then a whitespace character, then at least one more character, and the
heading text is the trimmed remainder (which is non-empty). -/
def IsHeadingLine (l : List Char) (k : Nat) (t : List Char) : Prop :=
  1 ≤ k ∧ k ≤ 6 ∧
    ∃ c r, pyStrip l = List.replicate k '#' ++ c :: r ∧ isPySpace c = true ∧ r ≠ [] ∧
      t = pyStrip (c :: r) ∧ t ≠ []

/-! Helper lemmas about whitespace stripping. -/

theorem dropWhile_ws_append_all (l₁ l₂ : List Char) (h : ∀ c ∈ l₁, isPySpace c = true) :
    (l₁ ++ l₂).dropWhile isPySpace = l₂.dropWhile isPySpace := by
  induction l₁ with
  | nil => rfl
  | cons a l ih =>
    have ha : isPySpace a = true := h a (by simp)
    simp only [List.cons_append, List.dropWhile_cons, ha, if_true]
    exact ih (fun c hc => h c (by simp [hc]))

theorem dropWhile_ws_head_false (l : List Char) (c : Char) (cs : List Char)
    (h : l.dropWhile isPySpace = c :: cs) : isPySpace c = false := by
  induction l with
  | nil => simp at h
  | cons a l ih =>
    rw [List.dropWhile_cons] at h
    by_cases ha : isPySpace a = true
    · rw [if_pos ha] at h
      exact ih h
    · rw [if_neg ha] at h
      cases h
      simpa using ha

theorem dropWhile_ws_append_of_ne_nil (l₁ l₂ : List Char) (h : l₁.dropWhile isPySpace ≠ []) :
    (l₁ ++ l₂).dropWhile isPySpace = l₁.dropWhile isPySpace ++ l₂ := by
  induction l₁ with
  | nil => simp at h
  | cons a l ih =>
    rw [List.cons_append, List.dropWhile_cons, List.dropWhile_cons]
    by_cases ha : isPySpace a = true
    · rw [if_pos ha, if_pos ha]
      rw [List.dropWhile_cons, if_pos ha] at h
      exact ih h
    · rw [if_neg ha, if_neg ha, List.cons_append]

theorem dropWhile_ws_getLast? (l : List Char) (h : l.dropWhile isPySpace ≠ []) :
    (l.dropWhile isPySpace).getLast? = l.getLast? := by
  induction l with
  | nil => simp at h
  | cons a l ih =>
    rw [List.dropWhile_cons]
    by_cases ha : isPySpace a = true
    · rw [if_pos ha]
      rw [List.dropWhile_cons, if_pos ha] at h
      have hl : l ≠ [] := by
        intro he
        rw [he] at h
        simp at h
      rw [ih h]
      cases l with
      | nil => exact absurd rfl hl
      | cons b bs => rw [List.getLast?_cons_cons]
    · rw [if_neg ha]

theorem dropWhile_ws_eq_self (l : List Char)
    (h : ∀ c, l.head? = some c → isPySpace c = false) : l.dropWhile isPySpace = l := by
  cases l with
  | nil => rfl
  | cons a l =>
    rw [List.dropWhile_cons, if_neg]
    rw [h a rfl]
    simp

theorem pyStrip_head?_false (l : List Char) (c : Char) (h : (pyStrip l).head? = some c) :
    isPySpace c = false := by
  unfold pyStrip at h
  rw [List.head?_reverse] at h
  have hz : ((l.dropWhile isPySpace).reverse.dropWhile isPySpace) ≠ [] := by
    intro he
    rw [he] at h
    simp at h
  rw [dropWhile_ws_getLast? _ hz, List.getLast?_reverse] at h
  cases he : (l.dropWhile isPySpace) with
  | nil => rw [he] at h; simp at h
  | cons b bs =>
    rw [he] at h
    simp only [List.head?_cons, Option.some.injEq] at h
    exact h ▸ dropWhile_ws_head_false l b bs he

theorem pyStrip_getLast?_false (l : List Char) (c : Char) (h : (pyStrip l).getLast? = some c) :
    isPySpace c = false := by
  unfold pyStrip at h
  rw [List.getLast?_reverse] at h
  cases he : ((l.dropWhile isPySpace).reverse.dropWhile isPySpace) with
  | nil => rw [he] at h; simp at h
  | cons b bs =>
    rw [he] at h
    simp only [List.head?_cons, Option.some.injEq] at h
    exact h ▸ dropWhile_ws_head_false _ b bs he

theorem pyStrip_idem (l : List Char) : pyStrip (pyStrip l) = pyStrip l := by
  have hx : (pyStrip l).dropWhile isPySpace = pyStrip l :=
    dropWhile_ws_eq_self _ (fun c h => pyStrip_head?_false l c h)
  have hxr : (pyStrip l).reverse.dropWhile isPySpace = (pyStrip l).reverse :=
    dropWhile_ws_eq_self _ (fun c h => by
      rw [List.head?_reverse] at h
      exact pyStrip_getLast?_false l c h)
  show ((((pyStrip l).dropWhile isPySpace).reverse.dropWhile isPySpace)).reverse = pyStrip l
  rw [hx, hxr, List.reverse_reverse]

theorem pyStrip_pad (pre l post : List Char)
    (h1 : ∀ c ∈ pre, isPySpace c = true) (h2 : ∀ c ∈ post, isPySpace c = true) :
    pyStrip (pre ++ l ++ post) = pyStrip l := by
  unfold pyStrip
  rw [List.append_assoc, dropWhile_ws_append_all pre (l ++ post) h1]
  by_cases hl : l.dropWhile isPySpace = []
  · have hall : ∀ c ∈ l, isPySpace c = true := List.dropWhile_eq_nil_iff.mp hl
    have hlp : (l ++ post).dropWhile isPySpace = [] :=
      List.dropWhile_eq_nil_iff.mpr (by
        intro c hc
        rcases List.mem_append.mp hc with h | h
        · exact hall c h
        · exact h2 c h)
    rw [hlp, hl]
  · rw [dropWhile_ws_append_of_ne_nil l post hl, List.reverse_append,
      dropWhile_ws_append_all post.reverse _ (fun c hc => h2 c (List.mem_reverse.mp hc))]

/-! Helper lemmas for paragraph extraction. -/

theorem blankGroups_ne_nil (ls : List (List Char)) : blankGroups ls ≠ [] := by
  cases ls with
  | nil => simp [blankGroups]
  | cons s ls =>
    unfold blankGroups
    cases h : blankGroups ls with
    | nil => simp
    | cons g gs =>
      dsimp only
      split <;> simp

theorem blankGroups_mem_ne_nil (ls : List (List Char)) :
    ∀ g ∈ blankGroups ls, ∀ s ∈ g, s ≠ [] := by
  induction ls with
  | nil =>
    intro g hg s hs
    simp [blankGroups] at hg
    subst hg
    simp at hs
  | cons a as ih =>
    intro g hg s hs
    unfold blankGroups at hg
    cases h : blankGroups as with
    | nil => exact absurd h (blankGroups_ne_nil as)
    | cons g0 gs0 =>
      rw [h] at hg
      dsimp only at hg
      by_cases ha : a.isEmpty
      · rw [if_pos ha] at hg
        rcases List.mem_cons.mp hg with hg | hg
        · subst hg; simp at hs
        · exact ih g (h ▸ hg) s hs
      · rw [if_neg ha] at hg
        rcases List.mem_cons.mp hg with hg | hg
        · subst hg
          rcases List.mem_cons.mp hs with hs | hs
          · subst hs
            simpa [List.isEmpty_iff] using ha
          · exact ih g0 (h ▸ List.mem_cons_self g0 gs0) s hs
        · exact ih g (h ▸ List.mem_cons.mpr (Or.inr hg)) s hs

theorem joinWith_ne_nil (sep : List Char) (x : List Char) (xs : List (List Char))
    (hx : x ≠ []) : joinWith sep (x :: xs) ≠ [] := by
  cases xs with
  | nil => simpa [joinWith] using hx
  | cons y ys =>
    unfold joinWith
    intro h
    rcases List.append_eq_nil.mp h with ⟨h1, -⟩
    rcases List.append_eq_nil.mp h1 with ⟨h2, -⟩
    exact hx h2

theorem filterMap_renderGroup_cons (g : List (List Char)) (gs : List (List (List Char))) :
    (g :: gs).filterMap renderGroup =
      optJoin (g.filter (fun s => !isSkipLine s)) ++ gs.filterMap renderGroup := by
  rw [List.filterMap_cons]
  unfold renderGroup optJoin
  by_cases h : (g.filter (fun s => !isSkipLine s)).isEmpty
  · simp [h]
  · simp [h]

theorem parasAux_eq (ls : List (List Char)) :
    ∀ (acc g : List (List Char)) (gs : List (List (List Char))),
      blankGroups (ls.map pyStrip) = g :: gs →
      parasAux acc ls =
        optJoin (acc ++ g.filter (fun s => !isSkipLine s)) ++ gs.filterMap renderGroup := by
  induction ls with
  | nil =>
    intro acc g gs h
    simp only [List.map_nil, blankGroups] at h
    cases h
    simp [parasAux, optJoin]
  | cons l ls ih =>
    intro acc g gs h
    simp only [List.map_cons] at h
    unfold blankGroups at h
    cases hbg : blankGroups (ls.map pyStrip) with
    | nil => exact absurd hbg (blankGroups_ne_nil _)
    | cons g1 gs1 =>
      rw [hbg] at h
      dsimp only at h
      by_cases hs : (pyStrip l).isEmpty
      · rw [if_pos hs] at h
        cases h
        show parasAux acc (l :: ls) = optJoin (acc ++ []) ++ (g1 :: gs1).filterMap renderGroup
        rw [filterMap_renderGroup_cons, List.append_nil]
        by_cases hacc : acc.isEmpty
        · have hae : acc = [] := List.isEmpty_iff.mp hacc
          subst hae
          simp only [parasAux, hs, if_pos hacc, if_true]
          rw [ih [] g1 gs1 hbg, List.nil_append]
          simp [optJoin]
        · simp only [parasAux, hs, if_true, if_neg hacc]
          rw [ih [] g1 gs1 hbg, List.nil_append]
          have : optJoin acc = [joinWith [' '] acc] := by
            unfold optJoin
            rw [if_neg hacc]
          rw [this]
          simp
      · rw [if_neg hs] at h
        cases h
        by_cases hsk : isSkipLine (pyStrip l)
        · show parasAux acc (l :: ls) =
            optJoin (acc ++ (pyStrip l :: g1).filter (fun s => !isSkipLine s)) ++
              gs.filterMap renderGroup
          simp only [parasAux, hs, if_false, hsk, if_true]
          rw [List.filter_cons_of_neg (by simp [hsk])]
          exact ih acc g1 gs hbg
        · show parasAux acc (l :: ls) =
            optJoin (acc ++ (pyStrip l :: g1).filter (fun s => !isSkipLine s)) ++
              gs.filterMap renderGroup
          simp only [parasAux, hs, if_false, hsk]
          rw [List.filter_cons_of_pos (by simp [hsk])]
          rw [ih (acc ++ [pyStrip l]) g1 gs hbg, List.append_assoc]
          simp


theorem renderGroup_some_ne_nil (a : List (List Char)) (p : List Char)
    (hne : ∀ s ∈ a, s ≠ []) (h : renderGroup a = some p) : p ≠ [] := by
  unfold renderGroup at h
  by_cases he : (a.filter (fun s => !isSkipLine s)).isEmpty
  · rw [if_pos he] at h
    cases h
  · rw [if_neg he] at h
    cases h
    cases hf : a.filter (fun s => !isSkipLine s) with
    | nil => rw [hf] at he; simp at he
    | cons x xs =>
      have hx : x ∈ a := by
        have : x ∈ a.filter (fun s => !isSkipLine s) := by
          rw [hf]
          exact List.mem_cons_self x xs
        exact (List.mem_filter.mp this).1
      exact joinWith_ne_nil [' '] x xs (hne x hx)

/-- C3: in paragraph extraction, skip lines (headings, fences, bullet and
numbered list markers) neither flush nor join the paragraph being
accumulated; paragraphs are exactly the blank-separated runs of plain
stripped lines joined by single spaces (flushed only on a blank line or end
of input), and no empty paragraph is ever emitted. -/
theorem claim3_paragraphs (c : List Char) :
    extract_paragraphs c = paragraphsSpec c ∧ ∀ p ∈ extract_paragraphs c, p ≠ [] := by
  constructor
  · cases hbg : blankGroups ((splitLines c).map pyStrip) with
    | nil => exact absurd hbg (blankGroups_ne_nil _)
    | cons g gs =>
      unfold extract_paragraphs paragraphsSpec
      rw [parasAux_eq (splitLines c) [] g gs hbg, List.nil_append,
        ← filterMap_renderGroup_cons, hbg]
      apply List.filter_eq_self.mpr
      intro p hp
      rw [List.mem_filterMap] at hp
      obtain ⟨a, ha, hpa⟩ := hp
      have hmem : a ∈ blankGroups ((splitLines c).map pyStrip) := by rw [hbg]; exact ha
      have hne : ∀ s ∈ a, s ≠ [] := fun s hs => blankGroups_mem_ne_nil _ a hmem s hs
      have := renderGroup_some_ne_nil a p hne hpa
      simpa [List.isEmpty_iff] using this
  · intro p hp
    unfold extract_paragraphs at hp
    rw [List.mem_filter] at hp
    simpa [List.isEmpty_iff] using hp.2

/-! Helper lemmas for heading extraction. -/

theorem pyStrip_eq_nil_iff (x : List Char) :
    pyStrip x = [] ↔ ∀ c ∈ x, isPySpace c = true := by
  unfold pyStrip
  constructor
  · intro h c hc
    rw [List.reverse_eq_nil_iff] at h
    have h2 : ∀ d ∈ (x.dropWhile isPySpace).reverse, isPySpace d = true :=
      List.dropWhile_eq_nil_iff.mp h
    have h3 : ∀ d ∈ x.dropWhile isPySpace, isPySpace d = true := by
      intro d hd
      exact h2 d (List.mem_reverse.mpr hd)
    by_cases hx : c ∈ x.takeWhile isPySpace
    · exact List.mem_takeWhile_imp hx
    · have : c ∈ x.takeWhile isPySpace ++ x.dropWhile isPySpace := by
        rw [List.takeWhile_append_dropWhile]
        exact hc
      rcases List.mem_append.mp this with h4 | h4
      · exact absurd h4 hx
      · exact h3 c h4
  · intro h
    have h1 : x.dropWhile isPySpace = [] :=
      List.dropWhile_eq_nil_iff.mpr h
    rw [h1]
    rfl

theorem ws_ne_hash {c : Char} (h : isPySpace c = true) : c ≠ '#' := by
  intro he
  subst he
  exact absurd h (by decide)

theorem takeWhile_hash_replicate (k : Nat) (c : Char) (r : List Char) (hc : c ≠ '#') :
    (List.replicate k '#' ++ c :: r).takeWhile (· = '#') = List.replicate k '#' := by
  induction k with
  | zero => simp [List.takeWhile_cons, hc]
  | succ n ih => simp [List.replicate_succ, List.takeWhile_cons, ih]

theorem headingMatch_eq_some_iff (l : List Char) (k : Nat) (t : List Char) :
    headingMatch l = some (k, t) ↔ IsHeadingLine l k t := by
  constructor
  · intro h
    unfold headingMatch at h
    dsimp only at h
    by_cases hk : 1 ≤ leadCount '#' (pyStrip l) ∧ leadCount '#' (pyStrip l) ≤ 6
    · rw [if_pos hk] at h
      cases hd : (pyStrip l).drop (leadCount '#' (pyStrip l)) with
      | nil => rw [hd] at h; cases h
      | cons c1 rest1 =>
        cases rest1 with
        | nil => rw [hd] at h; cases h
        | cons c2 rest =>
          rw [hd] at h
          dsimp only at h
          by_cases hws : isPySpace c1 = true
          · rw [if_pos hws] at h
            injection h with h
            injection h with hkk htt
            have hsplit : pyStrip l =
                (pyStrip l).takeWhile (· = '#') ++ (pyStrip l).dropWhile (· = '#') :=
              (List.takeWhile_append_dropWhile _ _).symm
            have htw : (pyStrip l).takeWhile (· = '#') =
                List.replicate (leadCount '#' (pyStrip l)) '#' := by
              apply List.eq_replicate_iff.mpr
              refine ⟨rfl, ?_⟩
              intro b hb
              simpa using List.mem_takeWhile_imp hb
            have hlen2 : ((pyStrip l).takeWhile (· = '#')).length =
                leadCount '#' (pyStrip l) := rfl
            have hdwgood : (pyStrip l).drop (leadCount '#' (pyStrip l)) =
                (pyStrip l).dropWhile (· = '#') := by
              have h2 : (((pyStrip l).takeWhile (· = '#')) ++
                  ((pyStrip l).dropWhile (· = '#'))).drop (leadCount '#' (pyStrip l)) =
                  (pyStrip l).dropWhile (· = '#') := List.drop_left' hlen2
              rw [← hsplit] at h2
              exact h2
            have heq : pyStrip l = List.replicate (leadCount '#' (pyStrip l)) '#' ++
                (c1 :: c2 :: rest) := by
              rw [← hd, hdwgood, ← htw]
              exact hsplit
            refine ⟨hkk ▸ hk.1, hkk ▸ hk.2, c1, c2 :: rest, ?_, hws, by simp, htt.symm, ?_⟩
            · rw [← hkk]
              exact heq
            · rw [← htt]
              intro hnil
              have hall : ∀ d ∈ c1 :: c2 :: rest, isPySpace d = true :=
                (pyStrip_eq_nil_iff _).mp hnil
              have hlast : (pyStrip l).getLast? = (c1 :: c2 :: rest).getLast? := by
                rw [heq]
                exact List.getLast?_append_of_ne_nil _ (by simp)
              cases hg : (c1 :: c2 :: rest).getLast? with
              | none => simp at hg
              | some a =>
                have ha : isPySpace a = true := hall a (List.mem_of_mem_getLast? hg)
                have := pyStrip_getLast?_false l a (by rw [hlast, hg])
                rw [this] at ha
                cases ha
          · rw [if_neg hws] at h
            cases h
    · rw [if_neg hk] at h
      cases h
  · rintro ⟨hk1, hk6, c, r, hs, hws, hr, ht, -⟩
    unfold headingMatch
    dsimp only
    have htw : (pyStrip l).takeWhile (· = '#') = List.replicate k '#' := by
      rw [hs]
      exact takeWhile_hash_replicate k c r (ws_ne_hash hws)
    have hlc : leadCount '#' (pyStrip l) = k := by
      unfold leadCount
      rw [htw, List.length_replicate]
    rw [hlc, if_pos ⟨hk1, hk6⟩]
    have hdrop : (pyStrip l).drop k = c :: r := by
      rw [hs]
      exact List.drop_left' (List.length_replicate k '#')
    rw [hdrop]
    cases r with
    | nil => exact absurd rfl hr
    | cons c2 rest =>
      dsimp only
      rw [if_pos hws, ht]

theorem headingsAux_mem (ls : List (List Char)) :
    ∀ (m k n : Nat) (t : List Char),
      (⟨k, t, n⟩ : Heading) ∈ headingsAux m ls ↔
        m ≤ n ∧ n < m + ls.length ∧ headingMatch (ls.getD (n - m) []) = some (k, t) := by
  induction ls with
  | nil =>
    intro m k n t
    simp [headingsAux]
    omega
  | cons l ls ih =>
    intro m k n t
    unfold headingsAux
    cases hm : headingMatch l with
    | some kt =>
      obtain ⟨k0, t0⟩ := kt
      rw [List.mem_cons]
      constructor
      · rintro (h | h)
        · injection h with h1 h2 h3
          refine ⟨by omega, by simp; omega, ?_⟩
          have hn : n - m = 0 := by omega
          rw [hn]
          simp only [List.getD_cons_zero]
          rw [hm, h1, h2]
        · obtain ⟨ha, hb, hc⟩ := (ih (m + 1) k n t).mp h
          refine ⟨by omega, by simp; omega, ?_⟩
          have : n - m = (n - (m + 1)) + 1 := by omega
          rw [this]
          simpa using hc
      · rintro ⟨ha, hb, hc⟩
        by_cases hnm : n = m
        · subst hnm
          left
          simp at hc
          rw [hm] at hc
          injection hc with hc
          injection hc with h1 h2
          rw [h1, h2]
        · right
          apply (ih (m + 1) k n t).mpr
          refine ⟨by omega, by simp at hb; omega, ?_⟩
          have : n - m = (n - (m + 1)) + 1 := by omega
          rw [this] at hc
          simpa using hc
    | none =>
      constructor
      · intro h
        obtain ⟨ha, hb, hc⟩ := (ih (m + 1) k n t).mp h
        refine ⟨by omega, by simp; omega, ?_⟩
        have : n - m = (n - (m + 1)) + 1 := by omega
        rw [this]
        simpa using hc
      · rintro ⟨ha, hb, hc⟩
        by_cases hnm : n = m
        · subst hnm
          simp at hc
          rw [hm] at hc
          cases hc
        · apply (ih (m + 1) k n t).mpr
          refine ⟨by omega, by simp at hb; omega, ?_⟩
          have : n - m = (n - (m + 1)) + 1 := by omega
          rw [this] at hc
          simpa using hc

theorem headingsAux_le (ls : List (List Char)) :
    ∀ (m : Nat) (h : Heading), h ∈ headingsAux m ls → m ≤ h.line_number := by
  induction ls with
  | nil => intro m h hh; simp [headingsAux] at hh
  | cons l ls ih =>
    intro m h hh
    unfold headingsAux at hh
    cases hm : headingMatch l with
    | some kt =>
      obtain ⟨k0, t0⟩ := kt
      rw [hm] at hh
      rcases List.mem_cons.mp hh with hh | hh
      · subst hh; exact le_refl m
      · have := ih (m + 1) h hh
        omega
    | none =>
      rw [hm] at hh
      have := ih (m + 1) h hh
      omega

theorem headingsAux_pairwise (ls : List (List Char)) :
    ∀ (m : Nat), (headingsAux m ls).Pairwise (fun a b => a.line_number < b.line_number) := by
  induction ls with
  | nil => intro m; simp [headingsAux]
  | cons l ls ih =>
    intro m
    unfold headingsAux
    cases hm : headingMatch l with
    | some kt =>
      obtain ⟨k0, t0⟩ := kt
      refine List.Pairwise.cons ?_ (ih (m + 1))
      intro b hb
      have := headingsAux_le ls (m + 1) b hb
      show m < b.line_number
      omega
    | none => exact ih (m + 1)

theorem isHeadingLine_leadCount (l : List Char) (k : Nat) (t : List Char)
    (h : IsHeadingLine l k t) : leadCount '#' (pyStrip l) = k := by
  obtain ⟨-, -, c, r, hs, hws, -, -, -⟩ := h
  unfold leadCount
  rw [hs, takeWhile_hash_replicate k c r (ws_ne_hash hws), List.length_replicate]

/-- C4: a line is recorded as a heading exactly when its stripped form
consists of 1 to 6 hash characters followed by whitespace and non-empty
text; the recorded level is the hash count, the text is trimmed, line
numbers are 1-based, headings appear in strictly increasing document order,
and a line whose stripped form begins with 7 or more hashes is never
recorded. -/
theorem claim4_heading_grammar (c : List Char) :
    (∀ (k n : Nat) (t : List Char),
        (⟨k, t, n⟩ : Heading) ∈ extract_headings c ↔
          1 ≤ n ∧ n ≤ (splitLines c).length ∧
            IsHeadingLine ((splitLines c).getD (n - 1) []) k t)
    ∧ (extract_headings c).Pairwise (fun a b => a.line_number < b.line_number)
    ∧ (∀ h ∈ extract_headings c,
        leadCount '#' (pyStrip ((splitLines c).getD (h.line_number - 1) [])) ≤ 6) := by
  refine ⟨?_, headingsAux_pairwise _ 1, ?_⟩
  · intro k n t
    unfold extract_headings
    rw [headingsAux_mem]
    constructor
    · rintro ⟨h1, h2, h3⟩
      exact ⟨h1, by omega, (headingMatch_eq_some_iff _ _ _).mp h3⟩
    · rintro ⟨h1, h2, h3⟩
      exact ⟨h1, by omega, (headingMatch_eq_some_iff _ _ _).mpr h3⟩
  · rintro ⟨k, t, n⟩ hh
    unfold extract_headings at hh
    obtain ⟨-, -, h3⟩ := (headingsAux_mem (splitLines c) 1 k n t).mp hh
    have hil := (headingMatch_eq_some_iff _ _ _).mp h3
    have := isHeadingLine_leadCount _ _ _ hil
    simp only []
    rw [this]
    exact hil.2.1

/-- Witness for C4 at the concrete input consisting of the single line
`"# A"`. -/
theorem claim4_witness :
    IsHeadingLine ((splitLines ("# A").toList).getD 0 []) 1 ("A").toList := by
  have h := (claim4_heading_grammar ("# A").toList).1 1 1 ("A").toList
  have hm : (⟨1, ("A").toList, 1⟩ : Heading) ∈ extract_headings ("# A").toList := by decide
  obtain ⟨-, -, h3⟩ := h.mp hm
  simpa using h3

/-! Helper lemmas relating title extraction to heading extraction. -/

theorem pyStrip_tail_ne_nil (l pre rest : List Char)
    (h : pyStrip l = pre ++ rest) (hr : rest ≠ []) : pyStrip rest ≠ [] := by
  intro hnil
  have hall : ∀ d ∈ rest, isPySpace d = true := (pyStrip_eq_nil_iff _).mp hnil
  have hlast : (pyStrip l).getLast? = rest.getLast? := by
    rw [h]
    exact List.getLast?_append_of_ne_nil _ hr
  cases rest with
  | nil => exact hr rfl
  | cons x xs =>
    cases hg : (x :: xs).getLast? with
    | none => simp at hg
    | some a =>
      have ha : isPySpace a = true := hall a (List.mem_of_mem_getLast? hg)
      have hf := pyStrip_getLast?_false l a (by rw [hlast, hg])
      rw [hf] at ha
      cases ha

theorem titleMatch_some_iff (l : List Char) (t : List Char) :
    titleMatch l = some t ↔ headingMatch l = some (1, t) := by
  constructor
  · intro h
    unfold titleMatch at h
    apply (headingMatch_eq_some_iff l 1 t).mpr
    cases hs : pyStrip l with
    | nil => rw [hs] at h; cases h
    | cons c0 s1 =>
      cases s1 with
      | nil => rw [hs] at h; cases h
      | cons c1 s2 =>
        cases s2 with
        | nil => rw [hs] at h; cases h
        | cons c2 rest =>
          rw [hs] at h
          dsimp only at h
          by_cases hc : c0 = '#' ∧ isPySpace c1 = true
          · rw [if_pos hc] at h
            injection h with h
            refine ⟨by omega, by omega, c1, c2 :: rest, ?_, hc.2, by simp, h.symm, ?_⟩
            · rw [hs, hc.1]
              rfl
            · rw [← h]
              exact pyStrip_tail_ne_nil l [c0] (c1 :: c2 :: rest) (by simpa using hs) (by simp)
          · rw [if_neg hc] at h
            cases h
  · intro h
    obtain ⟨-, -, c, r, hs, hws, hr, ht, -⟩ := (headingMatch_eq_some_iff l 1 t).mp h
    unfold titleMatch
    cases r with
    | nil => exact absurd rfl hr
    | cons c2 rest =>
      rw [hs]
      show (if ('#' : Char) = '#' ∧ isPySpace c = true then
        some (pyStrip (c :: c2 :: rest)) else none) = some t
      rw [if_pos ⟨rfl, hws⟩, ht]

theorem titleOfLines_eq_find (ls : List (List Char)) :
    ∀ m : Nat, titleOfLines ls =
      ((headingsAux m ls).find? (fun h => h.level == 1)).map Heading.text := by
  induction ls with
  | nil => intro m; simp [titleOfLines, headingsAux]
  | cons l ls ih =>
    intro m
    unfold titleOfLines headingsAux
    rw [List.findSome?_cons]
    cases hm : headingMatch l with
    | some kt =>
      obtain ⟨k, t⟩ := kt
      by_cases hk : k = 1
      · subst hk
        have : titleMatch l = some t := (titleMatch_some_iff l t).mpr hm
        rw [this]
        simp [List.find?_cons]
      · have hnone : titleMatch l = none := by
          cases ht : titleMatch l with
          | none => rfl
          | some t' =>
            have := (titleMatch_some_iff l t').mp ht
            rw [hm] at this
            injection this with this
            injection this with h1 h2
            exact absurd h1 hk
        rw [hnone]
        rw [List.find?_cons_of_neg _ (by simp [hk])]
        exact ih (m + 1)
    | none =>
      have hnone : titleMatch l = none := by
        cases ht : titleMatch l with
        | none => rfl
        | some t' =>
          have := (titleMatch_some_iff l t').mp ht
          rw [hm] at this
          cases this
      rw [hnone]
      exact ih (m + 1)

/-- C9: the parse result's title is present exactly when the headings list
contains a level-1 entry, and it equals the text of the first level-1
heading. -/
theorem claim9_title_invariant (c : List Char) :
    extract_title c = ((extract_headings c).find? (fun h => h.level == 1)).map Heading.text := by
  unfold extract_title extract_headings
  exact titleOfLines_eq_find (splitLines c) 1

/-! Helper lemmas for section derivation. -/

theorem sectionsAux_open (ls : List (List Char)) :
    ∀ (k : Nat) (t : List Char) (content : List (List Char)),
      sectionsAux (some (k, t)) content ls =
        ⟨k, t, pyStrip (joinWith ['\n']
          (content ++ ls.takeWhile (fun x => (headingMatch x).isNone)))⟩ ::
          sectionsSpec (ls.dropWhile (fun x => (headingMatch x).isNone)) := by
  induction ls with
  | nil =>
    intro k t content
    simp [sectionsAux, closeSection, sectionsSpec]
  | cons l ls ih =>
    intro k t content
    unfold sectionsAux
    cases hm : headingMatch l with
    | some kt =>
      obtain ⟨k1, t1⟩ := kt
      rw [List.takeWhile_cons, List.dropWhile_cons]
      simp only [hm, Option.isNone_some, Bool.false_eq_true, if_false, List.append_nil]
      rw [ih k1 t1 []]
      show closeSection (some (k, t)) content ++ _ = _ :: sectionsSpec (l :: ls)
      conv_rhs => rw [sectionsSpec.eq_2]
      rw [hm]
      simp [closeSection]
    | none =>
      rw [List.takeWhile_cons, List.dropWhile_cons]
      simp only [hm, Option.isNone_none, if_true, Option.isSome_some]
      rw [ih k t (content ++ [l]), List.append_assoc]
      simp

theorem sectionsAux_closed (ls : List (List Char)) :
    sectionsAux none [] ls = sectionsSpec ls := by
  induction ls with
  | nil => simp [sectionsAux, closeSection, sectionsSpec]
  | cons l ls ih =>
    unfold sectionsAux
    cases hm : headingMatch l with
    | some kt =>
      obtain ⟨k, t⟩ := kt
      dsimp only
      rw [sectionsAux_open ls k t []]
      show closeSection none [] ++ _ = _
      conv_rhs => rw [sectionsSpec.eq_2]
      rw [hm]
      simp [closeSection]
    | none =>
      show (if (none : Option (Nat × List Char)).isSome then
        sectionsAux none ([] ++ [l]) ls else sectionsAux none [] ls) = _
      rw [if_neg (by simp)]
      rw [ih]
      conv_rhs => rw [sectionsSpec.eq_2]
      rw [hm]

/-- C6: section derivation drops the lines before the first heading, closes
each section's content as the run of raw lines up to the next heading joined
by newlines and trimmed at both ends (blank lines inside a section are
preserved), and on the concrete input `"# A\ncontent1\n## B\ncontent2"`
produces exactly the two expected sections. -/
theorem claim6_sections :
    (∀ ls : List (List Char), sectionsAux none [] ls = sectionsSpec ls)
    ∧ get_sections ⟨none, some (("# A\ncontent1\n## B\ncontent2").toList), none⟩ =
        [⟨1, ("A").toList, ("content1").toList⟩, ⟨2, ("B").toList, ("content2").toList⟩] := by
  refine ⟨sectionsAux_closed, by decide⟩

/-! Helper lemmas for code-block extraction. -/

theorem cbMatchAt_code (s : List Char) (blk : CodeBlock) (r : List Char)
    (h : cbMatchAt s = some (blk, r)) : ∃ body, blk.code = pyStrip body := by
  unfold cbMatchAt at h
  cases s with
  | nil => cases h
  | cons a s1 =>
    cases s1 with
    | nil => cases h
    | cons b s2 =>
      cases s2 with
      | nil => cases h
      | cons c r1 =>
        dsimp only at h
        by_cases hf : (a == btick && b == btick && c == btick) = true
        · rw [if_pos hf] at h
          cases hd : r1.drop (r1.takeWhile isWordChar).length with
          | nil => rw [hd] at h; cases h
          | cons d r3 =>
            rw [hd] at h
            dsimp only at h
            by_cases hdn : d = '\n'
            · rw [if_pos hdn] at h
              cases hsp : splitAtTriple r3 with
              | none => rw [hsp] at h; cases h
              | some pr =>
                obtain ⟨body, rest⟩ := pr
                rw [hsp] at h
                dsimp only at h
                injection h with h1
                injection h1 with h3 h4
                exact ⟨body, by rw [← h3]⟩
            · rw [if_neg hdn] at h
              cases h
        · rw [if_neg hf] at h
          cases h

theorem scanCBF_trimmed (f : Nat) :
    ∀ (s : List Char) (b : CodeBlock), b ∈ scanCBF f s → pyStrip b.code = b.code := by
  induction f with
  | zero => intro s b hb; simp [scanCBF] at hb
  | succ f ih =>
    intro s b hb
    cases s with
    | nil => simp [scanCBF] at hb
    | cons c rest =>
      unfold scanCBF at hb
      cases hm : cbMatchAt (c :: rest) with
      | some br =>
        obtain ⟨blk, r⟩ := br
        rw [hm] at hb
        rcases List.mem_cons.mp hb with hb | hb
        · subst hb
          obtain ⟨body, hbody⟩ := cbMatchAt_code _ _ _ hm
          rw [hbody]
          exact pyStrip_idem body
        · exact ih r b hb
      | none =>
        rw [hm] at hb
        exact ih rest b hb

theorem cbMatchAt_language (s : List Char) (blk : CodeBlock) (r : List Char)
    (h : cbMatchAt s = some (blk, r)) :
    blk.language = if ((s.drop 3).takeWhile isWordChar).isEmpty then none
                   else some ((s.drop 3).takeWhile isWordChar) := by
  unfold cbMatchAt at h
  cases s with
  | nil => cases h
  | cons a s1 =>
    cases s1 with
    | nil => cases h
    | cons b s2 =>
      cases s2 with
      | nil => cases h
      | cons c r1 =>
        have hdrop : (a :: b :: c :: r1 : List Char).drop 3 = r1 := rfl
        rw [hdrop]
        dsimp only at h
        by_cases hf : (a == btick && b == btick && c == btick) = true
        · rw [if_pos hf] at h
          cases hd : r1.drop (r1.takeWhile isWordChar).length with
          | nil => rw [hd] at h; cases h
          | cons d r3 =>
            rw [hd] at h
            dsimp only at h
            by_cases hdn : d = '\n'
            · rw [if_pos hdn] at h
              cases hsp : splitAtTriple r3 with
              | none => rw [hsp] at h; cases h
              | some pr =>
                obtain ⟨body, rest⟩ := pr
                rw [hsp] at h
                dsimp only at h
                injection h with h1
                injection h1 with h3 h4
                rw [← h3]
            · rw [if_neg hdn] at h
              cases h
        · rw [if_neg hf] at h
          cases h

theorem scanCBF_from_match (f : Nat) :
    ∀ (s : List Char) (b : CodeBlock), b ∈ scanCBF f s →
      ∃ (s' r : List Char), cbMatchAt s' = some (b, r) := by
  induction f with
  | zero => intro s b hb; simp [scanCBF] at hb
  | succ f ih =>
    intro s b hb
    cases s with
    | nil => simp [scanCBF] at hb
    | cons c rest =>
      unfold scanCBF at hb
      cases hm : cbMatchAt (c :: rest) with
      | some br =>
        obtain ⟨blk, r⟩ := br
        rw [hm] at hb
        rcases List.mem_cons.mp hb with hb | hb
        · subst hb
          exact ⟨c :: rest, r, hm⟩
        · exact ih r b hb
      | none =>
        rw [hm] at hb
        exact ih rest b hb

/-- C7: parsing the input that consists of the fenced region
with language tag `python` and body `print(1)` yields exactly one code block
`{language: "python", code: "print(1)"}`; for every input, every captured
code block is trimmed of leading and trailing whitespace; for every fenced
region that matches, the captured language is absent exactly when the
opening fence carries no language tag (no word characters directly after the
backticks), and every extracted block arises from such a fence match; the
concrete no-tag fence yields an absent language. -/
theorem claim7_code_blocks :
    (parseContent (("```python\nprint(1)\n```").toList)).code_blocks =
        [⟨some (("python").toList), ("print(1)").toList⟩]
    ∧ (∀ (c : List Char) (b : CodeBlock), b ∈ extract_code_blocks c → pyStrip b.code = b.code)
    ∧ (∀ (s : List Char) (blk : CodeBlock) (r : List Char), cbMatchAt s = some (blk, r) →
        (blk.language = none ↔ (s.drop 3).takeWhile isWordChar = []))
    ∧ (∀ (c : List Char) (b : CodeBlock), b ∈ extract_code_blocks c →
        ∃ s r : List Char, cbMatchAt s = some (b, r))
    ∧ extract_code_blocks (("```\nprint(1)\n```").toList) = [⟨none, ("print(1)").toList⟩] := by
  refine ⟨by decide, ?_, ?_, ?_, by decide⟩
  · intro c b hb
    exact scanCBF_trimmed c.length c b hb
  · intro s blk r h
    rw [cbMatchAt_language s blk r h]
    by_cases he : ((s.drop 3).takeWhile isWordChar).isEmpty = true
    · rw [if_pos he]
      simp [List.isEmpty_iff.mp he]
    · rw [if_neg he]
      constructor
      · intro hc
        cases hc
      · intro hc
        rw [hc] at he
        simp at he
  · intro c b hb
    exact scanCBF_from_match c.length c b hb

/-- Witness for C7: the universal conjuncts applied to the concrete block
extracted from a fenced region with no language tag. -/
theorem claim7_witness :
    (pyStrip (("print(1)").toList) = ("print(1)").toList)
    ∧ ((⟨none, ("print(1)").toList⟩ : CodeBlock).language = none ↔
        ((("```\nprint(1)\n```").toList.drop 3).takeWhile isWordChar = []))
    ∧ (∃ s r : List Char, cbMatchAt s = some (⟨none, ("print(1)").toList⟩, r)) :=
  ⟨claim7_code_blocks.2.1 (("```\nprint(1)\n```").toList)
     ⟨none, ("print(1)").toList⟩ (by decide),
   claim7_code_blocks.2.2.1 (("```\nprint(1)\n```").toList)
     ⟨none, ("print(1)").toList⟩ [] (by decide),
   claim7_code_blocks.2.2.2.1 (("```\nprint(1)\n```").toList)
     ⟨none, ("print(1)").toList⟩ (by decide)⟩

theorem parse_not_falsy (st : RState) (hf : contentFalsy st.content = false) :
    parse st =
      match st.parsed_content with
      | some p => (Except.ok p, st)
      | none =>
        (Except.ok (parseContent (st.content.getD [])),
         { st with parsed_content := some (parseContent (st.content.getD [])) }) := by
  unfold parse
  rw [if_neg (by simp [hf])]

/-- C5: a successful parse is stable (parsing again returns the identical
cached structure and leaves the state unchanged), and after a load the parse
result is the pure function `parseContent` of the raw content alone. -/
theorem claim5_parse_pure :
    (∀ (st : RState) (r : Parsed) (st' : RState),
        parse st = (Except.ok r, st') → parse st' = (Except.ok r, st'))
    ∧ (∀ (st : RState) (c : List Char), c ≠ [] →
        parse ((read_string c st).2) =
          (Except.ok (parseContent c), ⟨none, some c, some (parseContent c)⟩)) := by
  constructor
  · intro st r st' h
    by_cases hf : contentFalsy st.content = true
    · exfalso
      unfold parse at h
      rw [if_pos hf] at h
      have := congrArg Prod.fst h
      simp at this
    · have hff : contentFalsy st.content = false := by simpa using hf
      rw [parse_not_falsy st hff] at h
      cases hp : st.parsed_content with
      | some p =>
        rw [hp] at h
        dsimp only at h
        have h1 := congrArg Prod.fst h
        have h2 := congrArg Prod.snd h
        dsimp only at h1 h2
        rw [parse_not_falsy st' (by rw [← h2]; exact hff)]
        rw [← h2, hp]
        dsimp only
        rw [h1]
      | none =>
        rw [hp] at h
        dsimp only at h
        have h1 := congrArg Prod.fst h
        have h2 := congrArg Prod.snd h
        dsimp only at h1 h2
        have hst' : st'.content = st.content := by rw [← h2]
        have hff' : contentFalsy st'.content = false := by rw [hst']; exact hff
        rw [parse_not_falsy st' hff']
        have hpc : st'.parsed_content = some (parseContent (st.content.getD [])) := by
          rw [← h2]
        rw [hpc]
        dsimp only
        rw [h1]
  · intro st c hc
    have hf : contentFalsy (some c) = false := by
      cases c with
      | nil => exact absurd rfl hc
      | cons a l => rfl
    show parse ⟨none, some c, none⟩ = _
    rw [parse_not_falsy ⟨none, some c, none⟩ hf]
    rfl

/-- Witness for C5: parsing after loading the one-character string `"a"`. -/
theorem claim5_witness :
    parse ((read_string (("a").toList) ⟨none, none, none⟩).2) =
      (Except.ok (parseContent (("a").toList)),
        ⟨none, some (("a").toList), some (parseContent (("a").toList))⟩) :=
  claim5_parse_pure.2 ⟨none, none, none⟩ (("a").toList) (by decide)

/-- C2 counterexample: after the successful load of the empty string the
parse operation still fails with `NoContentError` (the code tests falsiness,
not absence), and `get_sections` invoked before any load returns `[]` rather
than failing. -/
theorem claim2_counterexample :
    (parse ((read_string [] ⟨none, none, none⟩).2)).1 = Except.error MdErr.noContent
    ∧ get_sections ⟨none, none, none⟩ = [] :=
  ⟨rfl, rfl⟩

/-- C2 amended: `parse` and `get_headings_by_level` fail with
`NoContentError` exactly when the current content is absent or the empty
string (so they fail even after a successful load of the empty string),
while `get_sections` never fails: it returns `[]` whenever content is absent
or empty. -/
theorem claim2_amended (st : RState) (lv : Nat) :
    ((parse st).1 = Except.error MdErr.noContent ↔ contentFalsy st.content = true)
    ∧ ((get_headings_by_level st lv).1 = Except.error MdErr.noContent ↔
        contentFalsy st.content = true)
    ∧ (contentFalsy st.content = true → get_sections st = []) := by
  refine ⟨?_, ?_, ?_⟩
  · unfold parse
    by_cases hf : contentFalsy st.content = true
    · simp [hf]
    · simp only [hf, Bool.false_eq_true, if_false, if_neg hf]
      cases st.parsed_content <;> simp
  · unfold get_headings_by_level parse
    by_cases hf : contentFalsy st.content = true
    · simp [hf]
    · simp only [hf, Bool.false_eq_true, if_false, if_neg hf]
      cases st.parsed_content <;> simp
  · intro hf
    unfold get_sections
    rw [if_pos hf]

/-- Witness for C2 (amended): with the empty string loaded, `get_sections`
returns the empty list. -/
theorem claim2_witness : get_sections ⟨none, some [], none⟩ = [] :=
  (claim2_amended ⟨none, some [], none⟩ 0).2.2 rfl

/-- C8: loading from a path that does not exist fails with `NotFoundError`;
loading from a path that exists but is not a regular file fails with
`InvalidInputError`; in both cases the reader state is unchanged; on success
the file's text is stored as current content and the cached parse result is
invalidated. -/
theorem claim8_read (fs : List Char → PathKind) (p : List Char) (st : RState) :
    (fs p = PathKind.absent → read fs p st = (Except.error MdErr.notFound, st))
    ∧ (fs p = PathKind.nonFile → read fs p st = (Except.error MdErr.invalidInput, st))
    ∧ (∀ t, fs p = PathKind.file t →
        read fs p st = (Except.ok t, ⟨some p, some t, none⟩)) := by
  refine ⟨fun h => ?_, fun h => ?_, fun t h => ?_⟩ <;> unfold read <;> rw [h]

/-- Witness for C8 on a one-path file system where the path is absent. -/
theorem claim8_witness :
    read (fun _ => PathKind.absent) [] ⟨none, none, none⟩ =
      (Except.error MdErr.notFound, ⟨none, none, none⟩) :=
  (claim8_read (fun _ => PathKind.absent) [] ⟨none, none, none⟩).1 rfl

/-- C1 counterexample: on the input
`"[site](http://a.com) and ![alt](http://b.com/img.png)"` the links list is
not the claimed singleton (the image's bracket part also matches the
inline-link pattern, so there are two links). -/
theorem claim1_counterexample :
    extract_links (("[site](http://a.com) and ![alt](http://b.com/img.png)").toList) ≠
      [⟨("site").toList, ("http://a.com").toList⟩] := by
  decide

/-- C1 amended: on that input parse returns a links list with exactly two
entries, `{text: "site", url: "http://a.com"}` followed by
`{text: "alt", url: "http://b.com/img.png"}` (the second arising because the
inline-link pattern also matches inside the image syntax), and an images
list with exactly the one image `{alt_text: "alt", url:
"http://b.com/img.png"}`. -/
theorem claim1_links_images :
    (parse ⟨none,
        some (("[site](http://a.com) and ![alt](http://b.com/img.png)").toList), none⟩).1 =
      Except.ok (parseContent (("[site](http://a.com) and ![alt](http://b.com/img.png)").toList))
    ∧ (parseContent (("[site](http://a.com) and ![alt](http://b.com/img.png)").toList)).links =
        [⟨("site").toList, ("http://a.com").toList⟩,
         ⟨("alt").toList, ("http://b.com/img.png").toList⟩]
    ∧ (parseContent (("[site](http://a.com) and ![alt](http://b.com/img.png)").toList)).images =
        [⟨("alt").toList, ("http://b.com/img.png").toList⟩] := by
  refine ⟨rfl, by decide, by decide⟩

/-- Witness for C3: applying the no-empty-paragraph property to the
paragraph extracted from the single-line input `"hello"`. -/
theorem claim3_witness : ("hello").toList ≠ ([] : List Char) :=
  (claim3_paragraphs (("hello").toList)).2 (("hello").toList) (by decide)

/-! Helper lemmas for whitespace-insensitivity of heading recognition. -/

theorem headingMatch_strip_congr (a b : List Char) (h : pyStrip a = pyStrip b) :
    headingMatch a = headingMatch b := by
  unfold headingMatch
  rw [h]

theorem titleMatch_strip_congr (a b : List Char) (h : pyStrip a = pyStrip b) :
    titleMatch a = titleMatch b := by
  unfold titleMatch
  rw [h]

theorem titleOfLines_congr (ls : List (List Char)) :
    ∀ ls' : List (List Char), ls.length = ls'.length →
      (∀ i, pyStrip (ls.getD i []) = pyStrip (ls'.getD i [])) →
      titleOfLines ls = titleOfLines ls' := by
  induction ls with
  | nil =>
    intro ls' hl _
    cases ls' with
    | nil => rfl
    | cons => simp at hl
  | cons l ls ih =>
    intro ls' hl hs
    cases ls' with
    | nil => simp at hl
    | cons l' ls2 =>
      unfold titleOfLines
      rw [List.findSome?_cons, List.findSome?_cons]
      have h0 : pyStrip l = pyStrip l' := by simpa using hs 0
      rw [titleMatch_strip_congr l l' h0]
      cases titleMatch l' with
      | some t => rfl
      | none => exact ih ls2 (by simpa using hl) (fun i => by simpa using hs (i + 1))

theorem headingsAux_congr (ls : List (List Char)) :
    ∀ ls' : List (List Char), ls.length = ls'.length →
      (∀ i, pyStrip (ls.getD i []) = pyStrip (ls'.getD i [])) →
      ∀ n, headingsAux n ls = headingsAux n ls' := by
  induction ls with
  | nil =>
    intro ls' hl _ n
    cases ls' with
    | nil => rfl
    | cons => simp at hl
  | cons l ls ih =>
    intro ls' hl hs n
    cases ls' with
    | nil => simp at hl
    | cons l' ls2 =>
      unfold headingsAux
      have h0 : pyStrip l = pyStrip l' := by simpa using hs 0
      rw [headingMatch_strip_congr l l' h0]
      have ihn := ih ls2 (by simpa using hl) (fun i => by simpa using hs (i + 1)) (n + 1)
      cases headingMatch l' with
      | some kt => obtain ⟨k, t⟩ := kt; rw [ihn]
      | none => exact ihn

theorem sectionsAux_congr (ls : List (List Char)) :
    ∀ ls' : List (List Char), ls.length = ls'.length →
      (∀ i, pyStrip (ls.getD i []) = pyStrip (ls'.getD i [])) →
      ∀ (cur : Option (Nat × List Char)) (content content' : List (List Char)),
        (sectionsAux cur content ls).map (fun s => (s.level, s.heading)) =
          (sectionsAux cur content' ls').map (fun s => (s.level, s.heading)) := by
  induction ls with
  | nil =>
    intro ls' hl _ cur content content'
    cases ls' with
    | nil =>
      cases cur with
      | none => rfl
      | some kt => obtain ⟨k, t⟩ := kt; rfl
    | cons => simp at hl
  | cons l ls ih =>
    intro ls' hl hs cur content content'
    cases ls' with
    | nil => simp at hl
    | cons l' ls2 =>
      unfold sectionsAux
      have h0 : pyStrip l = pyStrip l' := by simpa using hs 0
      rw [headingMatch_strip_congr l l' h0]
      have hl2 : ls.length = ls2.length := by simpa using hl
      have hs2 : ∀ i, pyStrip (ls.getD i []) = pyStrip (ls2.getD i []) :=
        fun i => by simpa using hs (i + 1)
      cases headingMatch l' with
      | some kt =>
        obtain ⟨k, t⟩ := kt
        rw [List.map_append, List.map_append]
        congr 1
        · cases cur with
          | none => rfl
          | some kt0 => obtain ⟨k0, t0⟩ := kt0; rfl
        · exact ih ls2 hl2 hs2 (some (k, t)) [] []
      | none =>
        cases cur with
        | none =>
          rw [if_neg (by simp), if_neg (by simp)]
          exact ih ls2 hl2 hs2 none content content'
        | some kt0 =>
          rw [if_pos (by simp), if_pos (by simp)]
          exact ih ls2 hl2 hs2 (some kt0) (content ++ [l]) (content' ++ [l'])

/-- C10: heading recognition is applied to the whitespace-stripped line in
title extraction, heading extraction and section derivation: padding a line
with leading or trailing whitespace changes neither the per-line match (same
level and text) nor the extracted title, headings, or section structure. -/
theorem claim10_strip_insensitive :
    (∀ pre l post : List Char,
        (∀ c ∈ pre, isPySpace c = true) → (∀ c ∈ post, isPySpace c = true) →
        headingMatch (pre ++ l ++ post) = headingMatch l ∧
          titleMatch (pre ++ l ++ post) = titleMatch l)
    ∧ (∀ ls ls' : List (List Char), ls.length = ls'.length →
        (∀ i, pyStrip (ls.getD i []) = pyStrip (ls'.getD i [])) →
        titleOfLines ls = titleOfLines ls' ∧
          (∀ n, headingsAux n ls = headingsAux n ls') ∧
          (sectionsAux none [] ls).map (fun s => (s.level, s.heading)) =
            (sectionsAux none [] ls').map (fun s => (s.level, s.heading))) := by
  constructor
  · intro pre l post hpre hpost
    have h := pyStrip_pad pre l post hpre hpost
    exact ⟨headingMatch_strip_congr _ _ h, titleMatch_strip_congr _ _ h⟩
  · intro ls ls' hl hs
    exact ⟨titleOfLines_congr ls ls' hl hs,
           headingsAux_congr ls ls' hl hs,
           sectionsAux_congr ls ls' hl hs none [] []⟩

/-- Witness for C10: padding the line `"# A"` with one space on each side
leaves both matchers unchanged. -/
theorem claim10_witness :
    headingMatch ([' '] ++ ("# A").toList ++ [' ']) = headingMatch (("# A").toList) ∧
      titleMatch ([' '] ++ ("# A").toList ++ [' ']) = titleMatch (("# A").toList) :=
  claim10_strip_insensitive.1 [' '] (("# A").toList) [' '] (by decide) (by decide)

end MdReader
